import Mathlib

/-!
Verification development for the Iceberg table sink
(`be/src/runtime/iceberg_table_sink.cpp`).

The C++ source is shallowly embedded below.  External collaborators
(expression evaluation, the ORC encoder, the broker filesystem, the thrift
RPC transport, the wall clock `UnixMillis` and the date formatter
`DateTimeValue::to_format_string`) are modelled as explicit parameters:
the encoder's size growth is a byte count added per appended chunk, the
clock is a list of millisecond readings consumed in order, and the RPC
transport is a record of per-attempt outcomes.
-/

set_option autoImplicit false

namespace IcebergSink

/-- Embedding of `starrocks::Status`.  `fault` is not a C++ `Status`: it marks
undefined behaviour (dereference of a null `ColumnPtr`) so that the model can
observe it. -/
inductive Status where
  | ok
  | internalError (m : String)
  | notSupported (m : String)
  | notFound (m : String)
  | fault (m : String)
deriving DecidableEq, Repr

/-- Outcome of one `client->addIcebergFiles` attempt: a thrown
`TTransportException`, some other thrown `TException`, or a normal return
whose `response.status` is `st`. -/
inductive SendOutcome where
  | transportEx (m : String)
  | otherEx (m : String)
  | reply (st : Status)
deriving DecidableEq, Repr

/-- Behaviour of the RPC collaborators during one `close` call: the status of
acquiring the pooled `FrontendServiceConnection`, the outcomes of the first
and second `addIcebergFiles` attempts, and the status of the first
`client.reopen`. -/
structure NetBehavior where
  connect : Status
  send1 : SendOutcome
  send2 : SendOutcome
  reopen1 : Status

/-- Lines 254-288 of `close`: the nested try/catch around
`client->addIcebergFiles`.  Returns the status `close` would return from this
region together with the number of send attempts and the number of reopens.
The inner catch handles only `TTransportException` (reopen, then retry once);
the outer catch handles any `TException` (reopen to poison-pill the pooled
connection, then fail with `InternalError`).  On a normal reply the code
returns `response.status` when it is not OK and `Status::OK` otherwise, which
is the reply status either way. -/
def commitProtocol (net : NetBehavior) : Status × Nat × Nat :=
  match net.send1 with
  | .reply st => (st, 1, 0)
  | .transportEx _ =>
    match net.reopen1 with
    | .ok =>
      match net.send2 with
      | .reply st => (st, 2, 1)
      | .transportEx m2 =>
        (.internalError ("Fail to add export files to iceberg table. reason: " ++ m2), 2, 2)
      | .otherEx m2 =>
        (.internalError ("Fail to add export files to iceberg table. reason: " ++ m2), 2, 2)
    | e => (e, 1, 1)
  | .otherEx m =>
    (.internalError ("Fail to add export files to iceberg table. reason: " ++ m), 1, 1)

/-- One entry of `_partition_writer_map`: the ORC file builder for a
partition, reduced to its file path and accumulated byte size
(`file_size()`). -/
structure Writer where
  path : String
  size : Nat
deriving DecidableEq, Repr

/-- Mutable state of the sink relevant to the writer lifecycle:
`_partition_writer_map` (an association list in map-iteration order),
`RuntimeState::export_output_files()` (append-only), and the future readings
of `UnixMillis()` consumed by `gen_file_name`. -/
structure SinkState where
  writers : List (String × Writer)
  outputFiles : List String
  clock : List Nat
deriving DecidableEq, Repr

/-- Static configuration fixed at `init`/`open`, plus the behaviour of the
external collaborators: `finishSt p` is the status returned by `finish()` of
the writer whose file path is `p`; `formatDay t` is
`DateTimeValue::from_unixtime(t, utc).to_format_string("%Y-%m-%d")`;
`tzOffset` is `TimezoneUtils::to_utc_offset` of the default time zone. -/
structure SinkConfig where
  location : String
  fileNamePre : Option String
  fileFormat : String
  bytesPerFile : Nat
  backendId : Nat
  brokerAvailable : Bool
  finishSt : String → Status
  tzOffset : Int
  formatDay : Int → String

/-- Observable writer-lifecycle events: `finish p s` records that `finish()`
was successfully called on the writer with path `p` at accumulated size `s`;
`create p` records that a fresh writable file was opened at path `p`. -/
inductive WEvent where
  | finish (path : String) (size : Nat)
  | create (path : String)
deriving DecidableEq, Repr

instance {ε α : Type} [DecidableEq ε] [DecidableEq α] : DecidableEq (Except ε α)
  | .error x, .error y =>
    if h : x = y then .isTrue (congrArg Except.error h)
    else .isFalse fun he => h (Except.error.inj he)
  | .error _, .ok _ => .isFalse Except.noConfusion
  | .ok _, .error _ => .isFalse Except.noConfusion
  | .ok x, .ok y =>
    if h : x = y then .isTrue (congrArg Except.ok h)
    else .isFalse fun he => h (Except.ok.inj he)

/-- `std::map::find` / `std::map::at` on the writer map. -/
def lookupWriter (key : String) : List (String × Writer) → Option Writer
  | [] => none
  | kw :: rest => if kw.1 = key then some kw.2 else lookupWriter key rest

/-- `std::map::erase` of the entry found for `key`. -/
def eraseWriter (key : String) : List (String × Writer) → List (String × Writer)
  | [] => []
  | kw :: rest => if kw.1 = key then rest else kw :: eraseWriter key rest

/-- `add_chunk` on the writer for `key`: the encoder's accumulated size grows
by the appended chunk's encoded byte count. -/
def bumpWriter (key : String) (bytes : Nat) : List (String × Writer) → List (String × Writer)
  | [] => []
  | kw :: rest =>
    if kw.1 = key then (kw.1, ⟨kw.2.path, kw.2.size + bytes⟩) :: rest
    else kw :: bumpWriter key bytes rest

/-- `IcebergTableSink::gen_file_name` (lines 291-311), with the `UnixMillis()`
reading passed in. -/
def gen_file_name (cfg : SinkConfig) (millis : Nat) : Except Status String :=
  match cfg.fileNamePre with
  | none => .error (.internalError "file name prefix is not set")
  | some pre =>
    let base := pre ++ "_" ++ toString cfg.backendId ++ "_" ++ toString millis
    if cfg.fileFormat = "orc" then .ok (base ++ ".orc")
    else .error (.notSupported ("unsupported file format " ++ cfg.fileFormat))

/-- The file name `gen_file_name` produces on success. -/
def mkFileName (cfg : SinkConfig) (millis : Nat) : String :=
  cfg.fileNamePre.getD "" ++ "_" ++ toString cfg.backendId ++ "_" ++ toString millis ++ ".orc"

/-- The full output path `location + "/data/" + partition_key + file_name`
(line 328). -/
def mkPath (cfg : SinkConfig) (key : String) (millis : Nat) : String :=
  cfg.location ++ "/data/" ++ key ++ mkFileName cfg millis

/-- Lines 325-360 of `prepare_partition_writer`: generate a file name, open a
new writable file through the broker, build the ORC writer, insert it into the
map and record the path in `export_output_files`.  Consumes one clock
reading. -/
def createPW (cfg : SinkConfig) (key : String) (st : SinkState) :
    Except Status (SinkState × WEvent) :=
  match gen_file_name cfg (st.clock.headD 0) with
  | .error e => .error e
  | .ok name =>
    let path := cfg.location ++ "/data/" ++ key ++ name
    if cfg.brokerAvailable then
      if cfg.fileFormat = "orc" then
        .ok ({ writers := st.writers ++ [(key, ⟨path, 0⟩)],
               outputFiles := st.outputFiles ++ [path],
               clock := st.clock.tail },
             .create path)
      else .error (.notSupported ("unsupported file format " ++ cfg.fileFormat))
    else .error (.notFound "no broker found ")

/-- `IcebergTableSink::prepare_partition_writer` (lines 313-361): if a writer
exists for the key and its size has reached `bytes_per_file`, finish it, erase
it and fall through to creating a fresh writer; if it exists below budget,
return it unchanged; otherwise create a writer. -/
def prepPW (cfg : SinkConfig) (key : String) (st : SinkState) :
    Except Status (SinkState × List WEvent) :=
  match lookupWriter key st.writers with
  | some w =>
    if cfg.bytesPerFile ≤ w.size then
      match cfg.finishSt w.path with
      | .ok =>
        match createPW cfg key { st with writers := eraseWriter key st.writers } with
        | .error e => .error e
        | .ok (st', ev) => .ok (st', [.finish w.path w.size, ev])
      | .internalError m => .error (.internalError m)
      | .notSupported m => .error (.notSupported m)
      | .notFound m => .error (.notFound m)
      | .fault m => .error (.fault m)
    else .ok (st, [])
  | none =>
    match createPW cfg key st with
    | .error e => .error e
    | .ok (st', ev) => .ok (st', [ev])

/-- `IcebergTableSink::write_to_partition` (lines 205-212): prepare the writer
for the key, then `add_chunk`.  Also returns the writer's accumulated size
just before the append (for stating the budget invariant).  `bytes` is the
encoded size the appended chunk adds. -/
def writeToPartition (cfg : SinkConfig) (key : String) (bytes : Nat) (st : SinkState) :
    Except Status (SinkState × List WEvent × Nat) :=
  match prepPW cfg key st with
  | .error e => .error e
  | .ok (st', evs) =>
    match lookupWriter key st'.writers with
    | some w => .ok ({ st' with writers := bumpWriter key bytes st'.writers }, evs, w.size)
    | none => .error (.internalError "writer not found")

/-- A sequence of `write_to_partition` calls (partition key and appended
bytes per call), accumulating the writer-lifecycle events. -/
def runWrites (cfg : SinkConfig) : List (String × Nat) → SinkState →
    Except Status (SinkState × List WEvent)
  | [], st => .ok (st, [])
  | op :: rest, st =>
    match writeToPartition cfg op.1 op.2 st with
    | .error e => .error e
    | .ok (st', evs, _) =>
      match runWrites cfg rest st' with
      | .error e => .error e
      | .ok (st'', evs') => .ok (st'', evs ++ evs')

/-- The sink state at `open`: no writers, no recorded output files. -/
def initSink (clock : List Nat) : SinkState :=
  { writers := [], outputFiles := [], clock := clock }

/-- Paths whose writers were successfully finished, extracted from an event
trace. -/
def finishedOf (evs : List WEvent) : List String :=
  evs.filterMap fun e => match e with
    | .finish p _ => some p
    | .create _ => none

/-- The finalization loop at the start of `close` (lines 216-221): finish each
writer in map order, returning the first failure (if any) together with the
paths successfully finished. -/
def finishLoop (cfg : SinkConfig) : List (String × Writer) → Option Status × List String
  | [] => (none, [])
  | kw :: rest =>
    match cfg.finishSt kw.2.path with
    | .ok =>
      match finishLoop cfg rest with
      | (r, ps) => (r, kw.2.path :: ps)
    | .internalError m => (some (.internalError m), [])
    | .notSupported m => (some (.notSupported m), [])
    | .notFound m => (some (.notFound m), [])
    | .fault m => (some (.fault m), [])

/-- Observable result of `close`: the returned status, the paths whose
writers were finished by the close loop, whether the network section (client
acquisition and commit RPC) was reached, and the numbers of send attempts and
reopens. -/
structure CloseResult where
  status : Status
  finishedPaths : List String
  commitAttempted : Bool
  sends : Nat
  reopens : Nat
deriving DecidableEq, Repr

/-- `IcebergTableSink::close` (lines 214-289).  The upstream execution status
`execStatus` is a parameter of the C++ function that the body never reads. -/
def closeModel (cfg : SinkConfig) (net : NetBehavior) (st : SinkState)
    (execStatus : Status) : CloseResult :=
  match finishLoop cfg st.writers with
  | (some e, done) => ⟨e, done, false, 0, 0⟩
  | (none, done) =>
    if st.outputFiles.length = 0 then ⟨.ok, done, false, 0, 0⟩
    else
      match net.connect with
      | .ok =>
        match commitProtocol net with
        | (s, n1, n2) => ⟨s, done, true, n1, n2⟩
      | e => ⟨e, done, true, 0, 0⟩

/-!
## Partition grouping by cached data pointers (lines 148-201 of `send_chunk`)

The C++ code stores, per row, `(string *)pKey->data()` where `pKey` points to
the row's partition key inside the growing `std::vector<string> partitionKeys`,
and later groups rows by comparing those cached pointers against the current
`(string *)partitionKey.data()` of each vector element.  The pointer values
are modelled abstractly: a fresh-address counter assigns a distinct address to
each stored string's character data, and a `policy` flag per `emplace_back`
says whether that growth relocates the already-stored strings (as a vector
reallocation does for small-string-optimized keys). -/

/-- State of the key-deduplication loop: the values in `partitionKeys`, the
current data-pointer of each, the fresh-address counter, and the cached
`partitionReferences` of the rows processed so far. -/
structure PKState where
  keys : List String
  addrs : List Nat
  ctr : Nat
  refs : List Nat
deriving DecidableEq, Repr

def initPK : PKState := ⟨[], [], 0, []⟩

/-- Index of the first occurrence of `k` (the `std::find` /
`std::distance` idiom). -/
def idxIn (k : String) : List String → Nat
  | [] => 0
  | x :: rest => if x = k then 0 else idxIn k rest + 1

/-- One iteration of the row loop (lines 168-173): insert the key into
`partitionKeys` if absent (growing the vector, with `policy` deciding whether
the growth relocates the stored strings), then cache the current data pointer
of the found key in `partitionReferences`. -/
def processRow (policy : Nat → Bool) (s : PKState) (k : String) : PKState :=
  if k ∈ s.keys then
    { s with refs := s.refs ++ [s.addrs.getD (idxIn k s.keys) 0] }
  else if policy s.keys.length then
    { keys := s.keys ++ [k],
      addrs := (List.range (s.keys.length + 1)).map (fun j => s.ctr + j),
      ctr := s.ctr + s.keys.length + 1,
      refs := s.refs ++ [s.ctr + s.keys.length] }
  else
    { keys := s.keys ++ [k],
      addrs := s.addrs ++ [s.ctr],
      ctr := s.ctr + 1,
      refs := s.refs ++ [s.ctr] }

/-- Lines 179-201: with a single key the whole chunk is written to it;
otherwise, for each stored key, the selected row indices are those whose
cached pointer equals the key's current data pointer. -/
def pkGroups (s : PKState) : List (String × List Nat) :=
  if s.keys.length = 1 then
    [(s.keys.headD "", List.range s.refs.length)]
  else
    (s.keys.zip s.addrs).map fun p =>
      (p.1, (List.range s.refs.length).filter fun i => s.refs.getD i 0 = p.2)

/-- The partitioning step of `send_chunk` applied to the derived per-row keys:
the sub-batches as (key, row indices written to that key's partition). -/
def sendPartition (policy : Nat → Bool) (rows : List String) : List (String × List Nat) :=
  pkGroups (rows.foldl (processRow policy) initPK)

/-- Distinct values in first-seen order (the value-level content of
`partitionKeys`). -/
def dedupFS (rows : List String) : List String :=
  rows.foldl (fun acc k => if k ∈ acc then acc else acc ++ [k]) []

/-!
## The caller's chunk in `send_chunk` (lines 103-127)
-/

/-- An output slot of the destination tuple descriptor. -/
structure Slot where
  id : Nat
  colName : String
deriving DecidableEq, Repr

/-- The caller-visible parts of a `vectorized::Chunk`: the columns (tagged by
slot id, each a list of per-row timestamp values) and the slot-id-to-index
map. -/
structure ChunkB where
  cols : List (Nat × List Int)
  slotIdToIndex : List (Nat × Nat)
deriving DecidableEq, Repr

/-- The slot map installed by lines 123-126: `reset_slot_id_to_index`
followed by `set_slot_id_to_index(slots[i]->id(), i)` for each slot. -/
def slotMapOf (slots : List Slot) : List (Nat × Nat) :=
  slots.enum.map fun p => (p.2.id, p.1)

/-- Effect of `send_chunk` on the chunk object the caller passed in
(lines 105-127): with a configured projection the sink builds a fresh
`_output_chunk` and leaves the caller's chunk alone; with no projection it
rewrites the caller's chunk's slot-id-to-index map in place. -/
def sendChunkCallerChunk (exprsNonempty : Bool) (slots : List Slot) (c : ChunkB) : ChunkB :=
  if exprsNonempty then c else { c with slotIdToIndex := slotMapOf slots }

/-!
## Partition-column binding and key derivation (lines 131-174)
-/

/-- One `TIcebergTablePartitionColumn`. -/
structure PartitionColumn where
  columnName : String
  partitionName : String
  transform : String
deriving DecidableEq, Repr

/-- The nested binding loop of lines 140-147: for each partition column, for
each slot, if the slot name matches, write the slot's column at the position
of the running `index` cursor (which advances per match, not per partition
column) into the array `partition_columns` of default-initialized (null)
column pointers. -/
def resolveAux (slots : List Slot) (colOf : Nat → List Int) :
    List PartitionColumn → List (Option (List Int)) × Nat → List (Option (List Int)) × Nat
  | [], acc => acc
  | pc :: rest, acc =>
    resolveAux slots colOf rest
      (slots.foldl
        (fun a s =>
          if s.colName = pc.columnName then (a.1.set a.2 (some (colOf s.id)), a.2 + 1) else a)
        acc)

/-- The resolved `partition_columns` array (size = number of partition
columns, cells left `none` model null `ColumnPtr`s). -/
def resolveBinding (pcs : List PartitionColumn) (slots : List Slot)
    (colOf : Nat → List Int) : List (Option (List Int)) :=
  (resolveAux slots colOf pcs (List.replicate pcs.length none, 0)).1

/-- The first slot whose name matches the partition column (what the binding
loop stores when the match is unique). -/
def matchedSlot (slots : List Slot) (pc : PartitionColumn) : Option Slot :=
  slots.find? fun s => s.colName = pc.columnName

/-- The cell the binding loop writes for a uniquely-matched partition
column. -/
def expectedEntry (slots : List Slot) (colOf : Nat → List Int)
    (pc : PartitionColumn) : Option (List Int) :=
  (matchedSlot slots pc).map fun s => colOf s.id

/-- Failure of the per-row derivation loop: an unsupported transform (a C++
`Status::NotSupported`) or a dereference of a null column pointer (a crash in
the C++ code, observable here). -/
inductive DeriveErr where
  | unsupported (t : String)
  | nullDeref
deriving DecidableEq, Repr

/-- The per-row loop body of lines 156-167, iterating the partition columns
with `columnIdx` and accumulating the key string
`partitionName + "=" + day + "/"`. -/
def deriveKeyAux (cfg : SinkConfig) (cols : List (Option (List Int))) (i : Nat) :
    List PartitionColumn → Nat → String → Except DeriveErr String
  | [], _, acc => .ok acc
  | pc :: rest, idx, acc =>
    if pc.transform = "day" then
      match cols.getD idx none with
      | none => .error .nullDeref
      | some col =>
        deriveKeyAux cfg cols i rest (idx + 1)
          (acc ++ pc.partitionName ++ "=" ++ cfg.formatDay (col.getD i 0 - cfg.tzOffset) ++ "/")
    else .error (.unsupported pc.transform)

/-- The partition key derived for row `i`. -/
def deriveKey (cfg : SinkConfig) (pcs : List PartitionColumn)
    (cols : List (Option (List Int))) (i : Nat) : Except DeriveErr String :=
  deriveKeyAux cfg cols i pcs 0 ""

/-- Derivation over a list of row indices; the first error aborts. -/
def deriveAll (cfg : SinkConfig) (pcs : List PartitionColumn)
    (cols : List (Option (List Int))) : List Nat → Except DeriveErr (List String)
  | [] => .ok []
  | i :: rest =>
    match deriveKey cfg pcs cols i with
    | .error e => .error e
    | .ok k =>
      match deriveAll cfg pcs cols rest with
      | .error e => .error e
      | .ok ks => .ok (k :: ks)

/-- Keys for all rows of the chunk. -/
def deriveAllKeys (cfg : SinkConfig) (pcs : List PartitionColumn)
    (cols : List (Option (List Int))) (numRows : Nat) : Except DeriveErr (List String) :=
  deriveAll cfg pcs cols (List.range numRows)

/-- Lines 179-201 after grouping: write each sub-batch to its partition
sequentially, stopping at the first failure.  The encoded byte size the
encoder adds for a sub-batch is modelled as its row count. -/
def writeGroups (cfg : SinkConfig) : List (String × List Nat) → SinkState →
    Status × SinkState × List WEvent
  | [], st => (.ok, st, [])
  | g :: rest, st =>
    match writeToPartition cfg g.1 g.2.length st with
    | .error e => (e, st, [])
    | .ok (st', evs, _) =>
      match writeGroups cfg rest st' with
      | (s, st'', evs') => (s, st'', evs ++ evs')

/-- `IcebergTableSink::send_chunk` (lines 103-203) for the writer-facing
behaviour: bind the partition columns, derive every row's key, group the rows
and write each group.  On a derivation failure the whole batch is rejected
before any write. -/
def sendChunkModel (cfg : SinkConfig) (pcs : List PartitionColumn) (slots : List Slot)
    (colOf : Nat → List Int) (numRows : Nat) (policy : Nat → Bool) (st : SinkState) :
    Status × SinkState × List WEvent :=
  match deriveAllKeys cfg pcs (resolveBinding pcs slots colOf) numRows with
  | .error (.unsupported t) => (.notSupported ("unsupported transform " ++ t), st, [])
  | .error .nullDeref => (.fault "null column pointer dereference", st, [])
  | .ok keys => writeGroups cfg (sendPartition policy keys) st

/-!
## Concrete instances used by witnesses and counterexamples
-/

/-- A concrete configuration exercising the model on small inputs. -/
def cfgC : SinkConfig where
  location := "L"
  fileNamePre := some "f"
  fileFormat := "orc"
  bytesPerFile := 10
  backendId := 1
  brokerAvailable := true
  finishSt := fun _ => .ok
  tzOffset := 0
  formatDay := fun t => if t < 86400 then "1970-01-01" else "1970-01-02"

/-- Like `cfgC` but the writer whose path ends up first always fails to
finish. -/
def cfgBadFinish : SinkConfig :=
  { cfgC with finishSt := fun _ => .internalError "flush failed" }

/-!
## Helper lemmas
-/

theorem finishLoop_ok (cfg : SinkConfig) (ws : List (String × Writer))
    (h : ∀ kw ∈ ws, cfg.finishSt kw.2.path = .ok) :
    finishLoop cfg ws = (none, ws.map fun kw => kw.2.path) := by
  induction ws with
  | nil => rfl
  | cons kw rest ih =>
    have h1 : cfg.finishSt kw.2.path = .ok := h kw (List.mem_cons_self _ _)
    have h2 := ih fun x hx => h x (List.mem_cons_of_mem _ hx)
    simp [finishLoop, h1, h2]

theorem finishLoop_fail (cfg : SinkConfig) (pre : List (String × Writer))
    (kw : String × Writer) (post : List (String × Writer)) (e : Status)
    (hpre : ∀ x ∈ pre, cfg.finishSt x.2.path = .ok)
    (hbad : cfg.finishSt kw.2.path = e) (hne : e ≠ .ok) :
    finishLoop cfg (pre ++ kw :: post) = (some e, pre.map fun x => x.2.path) := by
  induction pre with
  | nil =>
    simp only [List.nil_append, List.map_nil]
    cases e with
    | ok => exact absurd rfl hne
    | internalError m => simp [finishLoop, hbad]
    | notSupported m => simp [finishLoop, hbad]
    | notFound m => simp [finishLoop, hbad]
    | fault m => simp [finishLoop, hbad]
  | cons x rest ih =>
    have h1 : cfg.finishSt x.2.path = .ok := hpre x (List.mem_cons_self _ _)
    have h2 := ih fun y hy => hpre y (List.mem_cons_of_mem _ hy)
    simp [finishLoop, h1, h2]

/-!
## C2: commit retry protocol
-/

/-- C2: in `close`, a transport-level failure of the first `addIcebergFiles`
attempt followed by a successful reopen and a successful second attempt gives
overall success with exactly two send attempts and exactly one reopen; and an
application-level failure status in the response of a (first-attempt)
successful send is surfaced with one send attempt and no reopen. -/
theorem c2_commit_retry_once (cfg : SinkConfig) (net : NetBehavior) (st : SinkState)
    (ex : Status) (m : String)
    (hfin : ∀ kw ∈ st.writers, cfg.finishSt kw.2.path = .ok)
    (hne : st.outputFiles ≠ [])
    (hcon : net.connect = .ok)
    (h1 : net.send1 = .transportEx m)
    (hre : net.reopen1 = .ok)
    (h2 : net.send2 = .reply .ok) :
    closeModel cfg net st ex = ⟨.ok, st.writers.map fun kw => kw.2.path, true, 2, 1⟩
    ∧ ∀ (net' : NetBehavior) (st' : SinkState) (ex' b : Status),
        (∀ kw ∈ st'.writers, cfg.finishSt kw.2.path = .ok) →
        st'.outputFiles ≠ [] → net'.connect = .ok → net'.send1 = .reply b →
        closeModel cfg net' st' ex' = ⟨b, st'.writers.map fun kw => kw.2.path, true, 1, 0⟩ := by
  constructor
  · simp [closeModel, finishLoop_ok cfg st.writers hfin, List.length_eq_zero, hne, hcon,
      commitProtocol, h1, hre, h2]
  · intro net' st' ex' b hfin' hne' hcon' h1'
    simp [closeModel, finishLoop_ok cfg st'.writers hfin', List.length_eq_zero, hne', hcon',
      commitProtocol, h1']

/-- Witness for C2 at a concrete close: one writer, one recorded path, a
transport failure then a clean reply. -/
theorem c2_commit_retry_once_witness :
    closeModel cfgC ⟨.ok, .transportEx "reset", .reply .ok, .ok⟩
        ⟨[("k", ⟨"p", 5⟩)], ["p"], []⟩ .ok
      = ⟨.ok, ["p"], true, 2, 1⟩ :=
  (c2_commit_retry_once cfgC ⟨.ok, .transportEx "reset", .reply .ok, .ok⟩
    ⟨[("k", ⟨"p", 5⟩)], ["p"], []⟩ .ok "reset"
    (fun kw _ => rfl) (by decide) rfl rfl rfl rfl).1

/-!
## C5: effect of `send_chunk` on the caller's chunk
-/

/-- C5 (amended): when a projection is configured, `send_chunk` leaves the
caller's chunk untouched; when no projection is configured it rewrites the
caller's chunk's slot-id-to-index map in place (the column data is not
modified). -/
theorem c5_caller_chunk_effect :
    (∀ (slots : List Slot) (c : ChunkB), sendChunkCallerChunk true slots c = c)
    ∧ ∀ (slots : List Slot) (c : ChunkB),
        (sendChunkCallerChunk false slots c).cols = c.cols
        ∧ (sendChunkCallerChunk false slots c).slotIdToIndex = slotMapOf slots := by
  refine ⟨fun slots c => rfl, fun slots c => ⟨rfl, rfl⟩⟩

/-- C5 counterexample: with no projection configured, `send_chunk` mutates the
caller's chunk — its slot-id-to-index map differs after the call. -/
theorem c5_caller_chunk_mutated :
    sendChunkCallerChunk false [⟨7, "x"⟩] ⟨[(5, [1])], [(5, 0)]⟩
      ≠ (⟨[(5, [1])], [(5, 0)]⟩ : ChunkB) := by
  decide

/-!
## C6: commit gating in `close`
-/

/-- C6 (amended): provided every writer finalization succeeds, `close`
reaches the network commit section iff at least one output file path was
recorded; with zero recorded paths it returns success without reaching the
network at all; and the result never depends on the upstream execution status
argument. -/
theorem c6_commit_iff_files (cfg : SinkConfig) (net : NetBehavior) (st : SinkState)
    (ex : Status)
    (hfin : ∀ kw ∈ st.writers, cfg.finishSt kw.2.path = .ok) :
    ((closeModel cfg net st ex).commitAttempted = true ↔ st.outputFiles ≠ [])
    ∧ (st.outputFiles = [] →
        closeModel cfg net st ex = ⟨.ok, st.writers.map fun kw => kw.2.path, false, 0, 0⟩)
    ∧ ∀ ex₂ : Status, closeModel cfg net st ex = closeModel cfg net st ex₂ := by
  refine ⟨?_, ?_, fun ex₂ => rfl⟩
  · by_cases he : st.outputFiles = []
    · simp [closeModel, finishLoop_ok cfg st.writers hfin, he]
    · cases hc : net.connect <;>
        simp [closeModel, finishLoop_ok cfg st.writers hfin, List.length_eq_zero, he, hc]
  · intro he
    simp [closeModel, finishLoop_ok cfg st.writers hfin, he]

/-- Witness for C6 with no recorded files and with one recorded file. -/
theorem c6_commit_iff_files_witness :
    ¬ (closeModel cfgC ⟨.ok, .reply .ok, .reply .ok, .ok⟩ ⟨[], [], []⟩ .ok).commitAttempted = true
    ∧ closeModel cfgC ⟨.ok, .reply .ok, .reply .ok, .ok⟩ ⟨[], [], []⟩ .ok
        = ⟨.ok, [], false, 0, 0⟩ := by
  have h := c6_commit_iff_files cfgC ⟨.ok, .reply .ok, .reply .ok, .ok⟩ ⟨[], [], []⟩ .ok
    (by intro kw hkw; cases hkw)
  exact ⟨fun hc => (h.1.mp hc) rfl, h.2.1 rfl⟩

/-- C6 counterexample to the claim as stated: a recorded output file exists,
but because a writer finalization fails, `close` never attempts the commit —
"commit attempted iff at least one path recorded" is false on the code. -/
theorem c6_commit_iff_files_cex :
    (⟨[("k", ⟨"p", 5⟩)], ["p"], []⟩ : SinkState).outputFiles ≠ []
    ∧ (closeModel cfgBadFinish ⟨.ok, .reply .ok, .reply .ok, .ok⟩
        ⟨[("k", ⟨"p", 5⟩)], ["p"], []⟩ .ok).commitAttempted = false := by
  decide

/-!
## C7: finalization failures abort `close` before the commit
-/

/-- C7: the first writer-finalization failure in `close` is returned
immediately: writers after it are not finalized, and the network commit
section is never reached. -/
theorem c7_finish_failure_bypasses_commit (cfg : SinkConfig) (net : NetBehavior)
    (pre : List (String × Writer)) (kw : String × Writer) (post : List (String × Writer))
    (files : List String) (clock : List Nat) (ex e : Status)
    (hpre : ∀ x ∈ pre, cfg.finishSt x.2.path = .ok)
    (hbad : cfg.finishSt kw.2.path = e) (hne : e ≠ .ok) :
    closeModel cfg net ⟨pre ++ kw :: post, files, clock⟩ ex
      = ⟨e, pre.map fun x => x.2.path, false, 0, 0⟩ := by
  simp [closeModel, finishLoop_fail cfg pre kw post e hpre hbad hne]

/-- Witness for C7: two writers, the first fails to finish; the second is not
finalized and no commit is attempted. -/
theorem c7_finish_failure_bypasses_commit_witness :
    closeModel cfgBadFinish ⟨.ok, .reply .ok, .reply .ok, .ok⟩
        ⟨[("k", ⟨"p", 5⟩), ("k2", ⟨"q", 7⟩)], ["p", "q"], []⟩ .ok
      = ⟨.internalError "flush failed", [], false, 0, 0⟩ :=
  c7_finish_failure_bypasses_commit cfgBadFinish ⟨.ok, .reply .ok, .reply .ok, .ok⟩
    [] ("k", ⟨"p", 5⟩) [("k2", ⟨"q", 7⟩)] ["p", "q"] [] .ok
    (.internalError "flush failed") (fun x hx => absurd hx (List.not_mem_nil x)) rfl (by decide)

/-!
## Lemmas about the writer map
-/

theorem lookupWriter_eq_none_of_not_mem (key : String) (l : List (String × Writer))
    (h : key ∉ l.map Prod.fst) : lookupWriter key l = none := by
  induction l with
  | nil => rfl
  | cons kw rest ih =>
    have h1 : kw.1 ≠ key := by
      intro he; exact h (by simp [he])
    have h2 : key ∉ rest.map Prod.fst := fun hm => h (by simp [hm])
    simp [lookupWriter, h1, ih h2]

theorem lookupWriter_append_none (key : String) (l₁ l₂ : List (String × Writer))
    (h : lookupWriter key l₁ = none) :
    lookupWriter key (l₁ ++ l₂) = lookupWriter key l₂ := by
  induction l₁ with
  | nil => rfl
  | cons kw rest ih =>
    by_cases he : kw.1 = key
    · simp [lookupWriter, he] at h
    · simp [lookupWriter, he] at h ⊢
      exact ih h

theorem lookupWriter_erase_of_nodup (key : String) (l : List (String × Writer))
    (h : (l.map Prod.fst).Nodup) : lookupWriter key (eraseWriter key l) = none := by
  induction l with
  | nil => rfl
  | cons kw rest ih =>
    simp only [List.map_cons, List.nodup_cons] at h
    by_cases he : kw.1 = key
    · have : key ∉ rest.map Prod.fst := he ▸ h.1
      simp [eraseWriter, he, lookupWriter_eq_none_of_not_mem key rest this]
    · simp [eraseWriter, lookupWriter, he, ih h.2]

theorem lookupWriter_snoc_self (key : String) (l : List (String × Writer)) (w : Writer)
    (h : lookupWriter key l = none) :
    lookupWriter key (l ++ [(key, w)]) = some w := by
  rw [lookupWriter_append_none key l _ h]
  simp [lookupWriter]

/-!
## Characterizations of writer creation and preparation
-/

theorem gen_file_name_ok (cfg : SinkConfig) (millis : Nat) (p : String)
    (hp : cfg.fileNamePre = some p) (hfmt : cfg.fileFormat = "orc") :
    gen_file_name cfg millis = .ok (mkFileName cfg millis) := by
  simp [gen_file_name, hp, hfmt, mkFileName]

theorem createPW_ok (cfg : SinkConfig) (key : String) (st : SinkState) (p : String)
    (hp : cfg.fileNamePre = some p) (hfmt : cfg.fileFormat = "orc")
    (hbrk : cfg.brokerAvailable = true) :
    createPW cfg key st = .ok
      ({ writers := st.writers ++ [(key, ⟨mkPath cfg key (st.clock.headD 0), 0⟩)],
         outputFiles := st.outputFiles ++ [mkPath cfg key (st.clock.headD 0)],
         clock := st.clock.tail },
       .create (mkPath cfg key (st.clock.headD 0))) := by
  have hg : ∀ m, gen_file_name cfg m = .ok (mkFileName cfg m) :=
    fun m => gen_file_name_ok cfg m p hp hfmt
  simp [createPW, hg, hbrk, hfmt, mkPath]

theorem createPW_ok_inv (cfg : SinkConfig) (key : String) (st : SinkState)
    (st' : SinkState) (ev : WEvent) (h : createPW cfg key st = .ok (st', ev)) :
    ∃ path, st'.writers = st.writers ++ [(key, ⟨path, 0⟩)]
      ∧ st'.outputFiles = st.outputFiles ++ [path]
      ∧ st'.clock = st.clock.tail
      ∧ ev = .create path := by
  unfold createPW at h
  split at h
  · simp at h
  · rename_i name hname
    split at h
    · split at h
      · simp only [Except.ok.injEq, Prod.mk.injEq] at h
        refine ⟨cfg.location ++ "/data/" ++ key ++ name, ?_, ?_, ?_, h.2.symm⟩
        · rw [← h.1]
        · rw [← h.1]
        · rw [← h.1]
      · simp at h
    · simp at h

theorem prepPW_below_budget (cfg : SinkConfig) (key : String) (st : SinkState) (w : Writer)
    (hw : lookupWriter key st.writers = some w) (hlt : w.size < cfg.bytesPerFile) :
    prepPW cfg key st = .ok (st, []) := by
  simp [prepPW, hw, Nat.not_le.mpr hlt]

theorem prepPW_roll (cfg : SinkConfig) (key : String) (st : SinkState) (w : Writer)
    (p : String)
    (hw : lookupWriter key st.writers = some w)
    (hroll : cfg.bytesPerFile ≤ w.size)
    (hfin : cfg.finishSt w.path = .ok)
    (hp : cfg.fileNamePre = some p) (hfmt : cfg.fileFormat = "orc")
    (hbrk : cfg.brokerAvailable = true) :
    prepPW cfg key st = .ok
      ({ writers := eraseWriter key st.writers
                      ++ [(key, ⟨mkPath cfg key (st.clock.headD 0), 0⟩)],
         outputFiles := st.outputFiles ++ [mkPath cfg key (st.clock.headD 0)],
         clock := st.clock.tail },
       [.finish w.path w.size, .create (mkPath cfg key (st.clock.headD 0))]) := by
  have hc := createPW_ok cfg key { st with writers := eraseWriter key st.writers } p hp hfmt hbrk
  simp [prepPW, hw, hroll, hfin, hc]

/-!
## C3: size-triggered rolling
-/

/-- C3: once a partition's writer has accumulated at least `bytes_per_file`
bytes, the very next write request for that key finishes and removes that
writer and installs a fresh writer (size 0) under a path not previously
recorded (given that the `UnixMillis` reading produces an unused path, which
distinct millisecond readings do); while a writer below the budget is
returned unchanged, with no writer-lifecycle event. -/
theorem c3_rolling_fresh_file (cfg : SinkConfig) (st : SinkState) (key : String)
    (w : Writer) (p : String)
    (hnd : (st.writers.map Prod.fst).Nodup)
    (hw : lookupWriter key st.writers = some w)
    (hroll : cfg.bytesPerFile ≤ w.size)
    (hfin : cfg.finishSt w.path = .ok)
    (hp : cfg.fileNamePre = some p) (hfmt : cfg.fileFormat = "orc")
    (hbrk : cfg.brokerAvailable = true)
    (hfresh : mkPath cfg key (st.clock.headD 0) ∉ st.outputFiles) :
    prepPW cfg key st = .ok
      ({ writers := eraseWriter key st.writers
                      ++ [(key, ⟨mkPath cfg key (st.clock.headD 0), 0⟩)],
         outputFiles := st.outputFiles ++ [mkPath cfg key (st.clock.headD 0)],
         clock := st.clock.tail },
       [.finish w.path w.size, .create (mkPath cfg key (st.clock.headD 0))])
    ∧ lookupWriter key (eraseWriter key st.writers
          ++ [(key, ⟨mkPath cfg key (st.clock.headD 0), 0⟩)])
        = some ⟨mkPath cfg key (st.clock.headD 0), 0⟩
    ∧ mkPath cfg key (st.clock.headD 0) ∉ st.outputFiles
    ∧ ∀ (cfg₂ : SinkConfig) (st₂ : SinkState) (key₂ : String) (w₂ : Writer),
        lookupWriter key₂ st₂.writers = some w₂ → w₂.size < cfg₂.bytesPerFile →
        prepPW cfg₂ key₂ st₂ = .ok (st₂, []) := by
  refine ⟨prepPW_roll cfg key st w p hw hroll hfin hp hfmt hbrk, ?_, hfresh, ?_⟩
  · exact lookupWriter_snoc_self key _ _ (lookupWriter_erase_of_nodup key st.writers hnd)
  · intro cfg₂ st₂ key₂ w₂ hw₂ hlt₂
    exact prepPW_below_budget cfg₂ key₂ st₂ w₂ hw₂ hlt₂

/-- Witness for C3: a writer of size 12 under budget 10 is rolled into a
fresh file `L/data/kf_1_7.orc` differing from the previously recorded path. -/
theorem c3_rolling_fresh_file_witness :
    prepPW cfgC "k" ⟨[("k", ⟨"P0", 12⟩)], ["P0"], [7]⟩
      = .ok (⟨[("k", ⟨"L/data/kf_1_7.orc", 0⟩)], ["P0", "L/data/kf_1_7.orc"], []⟩,
             [.finish "P0" 12, .create "L/data/kf_1_7.orc"]) :=
  (c3_rolling_fresh_file cfgC ⟨[("k", ⟨"P0", 12⟩)], ["P0"], [7]⟩ "k" ⟨"P0", 12⟩ "f"
    (by decide) rfl (by decide) rfl rfl rfl rfl (by decide)).1

/-- Inversion principle for a successful `prepare_partition_writer` call: it
either returned an existing below-budget writer unchanged, or created a
writer for a previously absent key, or rolled an at/over-budget writer into a
fresh one. -/
theorem prepPW_ok_inv (cfg : SinkConfig) (key : String) (st st' : SinkState)
    (evs : List WEvent) (h : prepPW cfg key st = .ok (st', evs)) :
    (∃ w, lookupWriter key st.writers = some w ∧ w.size < cfg.bytesPerFile
       ∧ st' = st ∧ evs = [])
    ∨ (∃ path, lookupWriter key st.writers = none
         ∧ st'.writers = st.writers ++ [(key, ⟨path, 0⟩)]
         ∧ st'.outputFiles = st.outputFiles ++ [path]
         ∧ st'.clock = st.clock.tail
         ∧ evs = [.create path])
    ∨ (∃ w path, lookupWriter key st.writers = some w ∧ cfg.bytesPerFile ≤ w.size
         ∧ cfg.finishSt w.path = .ok
         ∧ st'.writers = eraseWriter key st.writers ++ [(key, ⟨path, 0⟩)]
         ∧ st'.outputFiles = st.outputFiles ++ [path]
         ∧ st'.clock = st.clock.tail
         ∧ evs = [.finish w.path w.size, .create path]) := by
  unfold prepPW at h
  split at h
  · rename_i w hw
    split at h
    · rename_i hroll
      split at h
      · rename_i hfin
        split at h
        · simp at h
        · rename_i cst cev hc
          simp only [Except.ok.injEq, Prod.mk.injEq] at h
          obtain ⟨path, hwrs, hout, hclk, hev⟩ :=
            createPW_ok_inv cfg key { st with writers := eraseWriter key st.writers }
              cst cev (by rw [hc])
          refine Or.inr (Or.inr ⟨w, path, hw, hroll, hfin, ?_, ?_, ?_, ?_⟩)
          · rw [← h.1]; exact hwrs
          · rw [← h.1]; exact hout
          · rw [← h.1]; exact hclk
          · rw [← h.2, hev]
      · simp at h
      · simp at h
      · simp at h
      · simp at h
    · rename_i hroll
      simp only [Except.ok.injEq, Prod.mk.injEq] at h
      exact Or.inl ⟨w, hw, Nat.not_le.mp hroll, h.1.symm, h.2.symm⟩
  · rename_i hw
    split at h
    · simp at h
    · rename_i cst cev hc
      simp only [Except.ok.injEq, Prod.mk.injEq] at h
      obtain ⟨path, hwrs, hout, hclk, hev⟩ :=
        createPW_ok_inv cfg key st cst cev (by rw [hc])
      refine Or.inr (Or.inl ⟨path, hw, ?_, ?_, ?_, ?_⟩)
      · rw [← h.1]; exact hwrs
      · rw [← h.1]; exact hout
      · rw [← h.1]; exact hclk
      · rw [← h.2, hev]

/-!
## C9: the byte budget is checked only at write-request boundaries
-/

/-- C9: whenever a chunk is appended, the target writer's accumulated size
just before the append is strictly below the configured budget (a fresh or
rolled writer starts at size 0, an existing writer is reused only below the
budget); yet a single append may push the file past the budget, so a
finalized file can exceed it — in the concrete run below a file finalized at
size 100 exceeds the budget of 10. -/
theorem c9_budget_checked_at_boundary :
    (∀ (cfg : SinkConfig) (key : String) (bytes : Nat) (st : SinkState)
       (r : SinkState × List WEvent × Nat),
       (st.writers.map Prod.fst).Nodup → 0 < cfg.bytesPerFile →
       writeToPartition cfg key bytes st = .ok r → r.2.2 < cfg.bytesPerFile)
    ∧ runWrites cfgC [("k", 100), ("k", 1)] (initSink [0, 1])
        = .ok (⟨[("k", ⟨"L/data/kf_1_1.orc", 1⟩)],
                ["L/data/kf_1_0.orc", "L/data/kf_1_1.orc"], []⟩,
               [.create "L/data/kf_1_0.orc", .finish "L/data/kf_1_0.orc" 100,
                .create "L/data/kf_1_1.orc"])
      ∧ cfgC.bytesPerFile < 100 := by
  refine ⟨?_, by decide, by decide⟩
  intro cfg key bytes st r hnd hpos hwr
  unfold writeToPartition at hwr
  split at hwr
  · simp at hwr
  · rename_i st' evs hp
    split at hwr
    · rename_i w' hl
      simp only [Except.ok.injEq] at hwr
      have hr : r.2.2 = w'.size := by rw [← hwr]
      rw [hr]
      rcases prepPW_ok_inv cfg key st st' evs hp with
        ⟨w, hw, hlt, hst, _⟩ | ⟨path, hw, hwrs, _, _, _⟩ | ⟨w, path, hw, _, _, hwrs, _, _, _⟩
      · rw [hst, hw] at hl
        cases hl
        exact hlt
      · rw [hwrs, lookupWriter_snoc_self key st.writers ⟨path, 0⟩ hw] at hl
        cases hl
        exact hpos
      · rw [hwrs, lookupWriter_snoc_self key _ ⟨path, 0⟩
          (lookupWriter_erase_of_nodup key st.writers hnd)] at hl
        cases hl
        exact hpos
    · simp at hwr

/-- Witness for C9's universally quantified part at a concrete append. -/
theorem c9_budget_checked_at_boundary_witness :
    writeToPartition cfgC "k" 3 (initSink [0])
      = .ok (⟨[("k", ⟨"L/data/kf_1_0.orc", 3⟩)], ["L/data/kf_1_0.orc"], []⟩,
             [.create "L/data/kf_1_0.orc"], 0)
    ∧ (0 : Nat) < cfgC.bytesPerFile :=
  ⟨by decide,
   c9_budget_checked_at_boundary.1 cfgC "k" 3 (initSink [0])
     (⟨[("k", ⟨"L/data/kf_1_0.orc", 3⟩)], ["L/data/kf_1_0.orc"], []⟩,
      [.create "L/data/kf_1_0.orc"], 0)
     (by decide) (by decide) (by decide)⟩

/-!
## C4: recorded output files versus finished writers
-/

theorem bumpWriter_paths (key : String) (bytes : Nat) (l : List (String × Writer)) :
    (bumpWriter key bytes l).map (fun kw => kw.2.path) = l.map fun kw => kw.2.path := by
  induction l with
  | nil => rfl
  | cons kw rest ih =>
    by_cases he : kw.1 = key
    · simp [bumpWriter, he]
    · simp [bumpWriter, he, ih]

theorem mem_paths_erase (key p : String) (l : List (String × Writer))
    (h : p ∈ l.map fun kw => kw.2.path) :
    p ∈ (eraseWriter key l).map (fun kw => kw.2.path)
    ∨ ∃ w, lookupWriter key l = some w ∧ p = w.path := by
  induction l with
  | nil => simp at h
  | cons kw rest ih =>
    simp only [List.map_cons, List.mem_cons] at h
    by_cases he : kw.1 = key
    · rcases h with h | h
      · exact Or.inr ⟨kw.2, by simp [lookupWriter, he], h⟩
      · exact Or.inl (by simpa [eraseWriter, he] using h)
    · rcases h with h | h
      · exact Or.inl (by simp [eraseWriter, he, h])
      · rcases ih h with h' | ⟨w, hw, hp⟩
        · exact Or.inl (by simp [eraseWriter, he]; right; simpa using h')
        · exact Or.inr ⟨w, by simpa [lookupWriter, he] using hw, hp⟩

theorem prepPW_records_inv (cfg : SinkConfig) (key : String) (st st' : SinkState)
    (evs : List WEvent) (F : List String)
    (hInv : ∀ p ∈ st.outputFiles, p ∈ F ∨ p ∈ st.writers.map fun kw => kw.2.path)
    (h : prepPW cfg key st = .ok (st', evs)) :
    ∀ p ∈ st'.outputFiles,
      p ∈ F ++ finishedOf evs ∨ p ∈ st'.writers.map fun kw => kw.2.path := by
  rcases prepPW_ok_inv cfg key st st' evs h with
    ⟨w, hw, _, hst, hevs⟩ | ⟨path, hw, hwrs, hout, _, hevs⟩ |
    ⟨w, path, hw, _, _, hwrs, hout, _, hevs⟩
  · subst hst
    intro p hp
    rcases hInv p hp with h' | h'
    · exact Or.inl (List.mem_append_left _ h')
    · exact Or.inr h'
  · intro p hp
    rw [hout] at hp
    rcases List.mem_append.mp hp with hp | hp
    · rcases hInv p hp with h' | h'
      · exact Or.inl (List.mem_append_left _ h')
      · refine Or.inr ?_
        rw [hwrs, List.map_append]
        exact List.mem_append_left _ h'
    · refine Or.inr ?_
      rw [hwrs, List.map_append]
      refine List.mem_append_right _ ?_
      simpa using hp
  · intro p hp
    rw [hout] at hp
    rcases List.mem_append.mp hp with hp | hp
    · rcases hInv p hp with h' | h'
      · exact Or.inl (List.mem_append_left _ h')
      · rcases mem_paths_erase key p st.writers h' with h'' | ⟨w', hw', hp'⟩
        · refine Or.inr ?_
          rw [hwrs, List.map_append]
          exact List.mem_append_left _ h''
        · rw [hw] at hw'
          cases hw'
          refine Or.inl (List.mem_append_right _ ?_)
          simp [hevs, finishedOf, hp']
    · refine Or.inr ?_
      rw [hwrs, List.map_append]
      refine List.mem_append_right _ ?_
      simpa using hp

theorem writeToPartition_ok_inv (cfg : SinkConfig) (key : String) (bytes : Nat)
    (st : SinkState) (r : SinkState × List WEvent × Nat)
    (h : writeToPartition cfg key bytes st = .ok r) :
    ∃ st', prepPW cfg key st = .ok (st', r.2.1)
      ∧ r.1.writers = bumpWriter key bytes st'.writers
      ∧ r.1.outputFiles = st'.outputFiles
      ∧ r.1.clock = st'.clock := by
  unfold writeToPartition at h
  split at h
  · simp at h
  · rename_i st' evs hp
    split at h
    · rename_i w hl
      simp only [Except.ok.injEq] at h
      refine ⟨st', ?_, ?_, ?_, ?_⟩
      · rw [hp, ← h]
      · rw [← h]
      · rw [← h]
      · rw [← h]
    · simp at h

theorem writeToPartition_records_inv (cfg : SinkConfig) (key : String) (bytes : Nat)
    (st : SinkState) (r : SinkState × List WEvent × Nat) (F : List String)
    (hInv : ∀ p ∈ st.outputFiles, p ∈ F ∨ p ∈ st.writers.map fun kw => kw.2.path)
    (h : writeToPartition cfg key bytes st = .ok r) :
    ∀ p ∈ r.1.outputFiles,
      p ∈ F ++ finishedOf r.2.1 ∨ p ∈ r.1.writers.map fun kw => kw.2.path := by
  obtain ⟨st', hp, hwrs, hout, _⟩ := writeToPartition_ok_inv cfg key bytes st r h
  intro p hpm
  rw [hout] at hpm
  rcases prepPW_records_inv cfg key st st' r.2.1 F hInv hp p hpm with h' | h'
  · exact Or.inl h'
  · refine Or.inr ?_
    rw [hwrs, bumpWriter_paths]
    exact h'

theorem finishedOf_append (evs evs' : List WEvent) :
    finishedOf (evs ++ evs') = finishedOf evs ++ finishedOf evs' := by
  simp [finishedOf, List.filterMap_append]

theorem runWrites_records_inv (cfg : SinkConfig) (ops : List (String × Nat)) :
    ∀ (st : SinkState) (F : List String) (res : SinkState × List WEvent),
      (∀ p ∈ st.outputFiles, p ∈ F ∨ p ∈ st.writers.map fun kw => kw.2.path) →
      runWrites cfg ops st = .ok res →
      ∀ p ∈ res.1.outputFiles,
        p ∈ F ++ finishedOf res.2 ∨ p ∈ res.1.writers.map fun kw => kw.2.path := by
  induction ops with
  | nil =>
    intro st F res hInv h
    simp only [runWrites, Except.ok.injEq] at h
    intro p hp
    rw [← h] at hp
    rcases hInv p hp with h' | h'
    · exact Or.inl (List.mem_append_left _ h')
    · rw [← h]
      exact Or.inr h'
  | cons op rest ih =>
    intro st F res hInv h
    unfold runWrites at h
    split at h
    · simp at h
    · rename_i wst wevs wpre hw
      split at h
      · simp at h
      · rename_i st'' evs' hrest
        simp only [Except.ok.injEq] at h
        have hmid := writeToPartition_records_inv cfg op.1 op.2 st (wst, wevs, wpre) F hInv hw
        have hrec := ih wst (F ++ finishedOf wevs) (st'', evs') hmid hrest
        intro p hp
        rw [← h] at hp
        rcases hrec p (by simpa using hp) with h' | h'
        · refine Or.inl ?_
          rw [← h]
          simp only [finishedOf_append, List.append_assoc] at h' ⊢
          simpa using h'
        · rw [← h]
          exact Or.inr h'

/-- C4 (amended): output-file records are appended when a writer is *created*
(not when it is finalized), but every recorded path belongs to a writer that
has been finalized by the time `close` reads the list for the commit: each
recorded path was either finished during rolling (a `finish` event of the
run) or is finished by `close`'s finalization loop before the commit
request is built. -/
theorem c4_recorded_paths_finished_at_commit (cfg : SinkConfig) (ops : List (String × Nat))
    (clock : List Nat) (st : SinkState) (evs : List WEvent) (net : NetBehavior) (ex : Status)
    (hrun : runWrites cfg ops (initSink clock) = .ok (st, evs))
    (hfin : ∀ kw ∈ st.writers, cfg.finishSt kw.2.path = .ok) :
    (closeModel cfg net st ex).finishedPaths = st.writers.map (fun kw => kw.2.path)
    ∧ ∀ p ∈ st.outputFiles,
        p ∈ finishedOf evs ∨ p ∈ (closeModel cfg net st ex).finishedPaths := by
  have hclose : (closeModel cfg net st ex).finishedPaths
      = st.writers.map fun kw => kw.2.path := by
    rw [closeModel, finishLoop_ok cfg st.writers hfin]
    by_cases he : st.outputFiles.length = 0
    · simp [he]
    · cases hc : net.connect <;> simp [he, hc]
  refine ⟨hclose, ?_⟩
  intro p hp
  have := runWrites_records_inv cfg ops (initSink clock) [] (st, evs)
    (by intro q hq; simp [initSink] at hq) hrun p hp
  rcases this with h' | h'
  · exact Or.inl (by simpa using h')
  · rw [hclose]
    exact Or.inr h'

/-- Witness for C4 at a concrete run: one write, then a clean close; the
single recorded path is finished by the close loop. -/
theorem c4_recorded_paths_finished_at_commit_witness :
    (closeModel cfgC ⟨.ok, .reply .ok, .reply .ok, .ok⟩
        ⟨[("k", ⟨"L/data/kf_1_0.orc", 3⟩)], ["L/data/kf_1_0.orc"], []⟩ .ok).finishedPaths
      = ["L/data/kf_1_0.orc"]
    ∧ ∀ p ∈ ["L/data/kf_1_0.orc"],
        p ∈ finishedOf [.create "L/data/kf_1_0.orc"]
        ∨ p ∈ (closeModel cfgC ⟨.ok, .reply .ok, .reply .ok, .ok⟩
            ⟨[("k", ⟨"L/data/kf_1_0.orc", 3⟩)], ["L/data/kf_1_0.orc"], []⟩ .ok).finishedPaths :=
  c4_recorded_paths_finished_at_commit cfgC [("k", 3)] [0]
    ⟨[("k", ⟨"L/data/kf_1_0.orc", 3⟩)], ["L/data/kf_1_0.orc"], []⟩
    [.create "L/data/kf_1_0.orc"] ⟨.ok, .reply .ok, .reply .ok, .ok⟩ .ok
    (by decide) (fun kw _ => rfl)

/-- C4 counterexample to the claim as stated: immediately after one write,
the path is already recorded in the output-file list although its writer is
still open — no writer has been finalized at that point. -/
theorem c4_recorded_before_finalize_cex :
    runWrites cfgC [("k", 3)] (initSink [0])
      = .ok (⟨[("k", ⟨"L/data/kf_1_0.orc", 3⟩)], ["L/data/kf_1_0.orc"], []⟩,
             [.create "L/data/kf_1_0.orc"])
    ∧ "L/data/kf_1_0.orc" ∈ ["L/data/kf_1_0.orc"]
    ∧ "L/data/kf_1_0.orc" ∉ finishedOf [.create "L/data/kf_1_0.orc"] := by
  decide

/-!
## Binding resolution: the nested name-matching loop
-/

theorem foldl_bind_nomatch (colOf : Nat → List Int) (pc : PartitionColumn)
    (l : List Slot) (acc : List (Option (List Int)) × Nat)
    (h : ∀ x ∈ l, x.colName ≠ pc.columnName) :
    l.foldl
      (fun a s =>
        if s.colName = pc.columnName then (a.1.set a.2 (some (colOf s.id)), a.2 + 1) else a)
      acc = acc := by
  induction l generalizing acc with
  | nil => rfl
  | cons t rest ih =>
    have ht : t.colName ≠ pc.columnName := h t (List.mem_cons_self _ _)
    simp only [List.foldl_cons, if_neg ht]
    exact ih acc fun x hx => h x (List.mem_cons_of_mem _ hx)

theorem foldl_bind_unique (colOf : Nat → List Int) (pc : PartitionColumn)
    (l₁ : List Slot) (s : Slot) (l₂ : List Slot)
    (arr : List (Option (List Int))) (i : Nat)
    (h1 : ∀ x ∈ l₁, x.colName ≠ pc.columnName) (hs : s.colName = pc.columnName)
    (h2 : ∀ x ∈ l₂, x.colName ≠ pc.columnName) :
    (l₁ ++ s :: l₂).foldl
      (fun a x =>
        if x.colName = pc.columnName then (a.1.set a.2 (some (colOf x.id)), a.2 + 1) else a)
      (arr, i) = (arr.set i (some (colOf s.id)), i + 1) := by
  rw [List.foldl_append, foldl_bind_nomatch colOf pc l₁ (arr, i) h1]
  simp only [List.foldl_cons, if_pos hs]
  exact foldl_bind_nomatch colOf pc l₂ _ h2

theorem exists_unique_match_decomp (slots : List Slot) (pc : PartitionColumn)
    (h : (slots.filter fun s => s.colName = pc.columnName).length = 1) :
    ∃ l₁ s l₂, slots = l₁ ++ s :: l₂ ∧ s.colName = pc.columnName
      ∧ (∀ x ∈ l₁, x.colName ≠ pc.columnName) ∧ (∀ x ∈ l₂, x.colName ≠ pc.columnName)
      ∧ matchedSlot slots pc = some s := by
  induction slots with
  | nil => simp at h
  | cons t rest ih =>
    by_cases ht : t.colName = pc.columnName
    · rw [List.filter_cons_of_pos (by simp [ht])] at h
      simp only [List.length_cons] at h
      have h0 : (rest.filter fun s => s.colName = pc.columnName).length = 0 := by omega
      have hrest : ∀ x ∈ rest, ¬ x.colName = pc.columnName := by
        have := List.filter_eq_nil_iff.mp (List.length_eq_zero.mp h0)
        intro x hx hc
        exact absurd (by simp [hc] : (fun s => decide (s.colName = pc.columnName)) x = true)
          (by simpa using this x hx)
      refine ⟨[], t, rest, rfl, ht, by simp, hrest, ?_⟩
      show (t :: rest).find? (fun s => s.colName = pc.columnName) = some t
      exact List.find?_cons_of_pos _ (by simp [ht])
    · rw [List.filter_cons_of_neg (by simp [ht])] at h
      obtain ⟨l₁, s, l₂, hdec, hs, h1, h2, hms⟩ := ih h
      refine ⟨t :: l₁, s, l₂, by simp [hdec], hs, ?_, h2, ?_⟩
      · intro x hx
        rcases List.mem_cons.mp hx with hx | hx
        · rw [hx]; exact ht
        · exact h1 x hx
      · rw [matchedSlot, List.find?_cons_of_neg _ (by simp [ht])]
        exact hms

theorem resolveAux_spec (slots : List Slot) (colOf : Nat → List Int) :
    ∀ (pcs : List PartitionColumn) (arr : List (Option (List Int))) (i : Nat),
      (∀ pc ∈ pcs, (slots.filter fun s => s.colName = pc.columnName).length = 1) →
      i + pcs.length ≤ arr.length →
      (resolveAux slots colOf pcs (arr, i)).1.length = arr.length
      ∧ (∀ j, j < i → (resolveAux slots colOf pcs (arr, i)).1.getD j none = arr.getD j none)
      ∧ ∀ j, j < pcs.length →
          (resolveAux slots colOf pcs (arr, i)).1.getD (i + j) none
            = expectedEntry slots colOf (pcs.getD j ⟨"", "", ""⟩) := by
  intro pcs
  induction pcs with
  | nil =>
    intro arr i _ _
    exact ⟨rfl, fun j _ => rfl, fun j hj => absurd hj (by simp)⟩
  | cons pc rest ih =>
    intro arr i hu hlen
    obtain ⟨l₁, s, l₂, hdec, hs, h1, h2, hms⟩ :=
      exists_unique_match_decomp slots pc (hu pc (List.mem_cons_self _ _))
    have hilt : i < arr.length := by
      simp only [List.length_cons] at hlen; omega
    have hstep : resolveAux slots colOf (pc :: rest) (arr, i)
        = resolveAux slots colOf rest (arr.set i (some (colOf s.id)), i + 1) := by
      show resolveAux slots colOf rest
        (slots.foldl
          (fun a x =>
            if x.colName = pc.columnName then (a.1.set a.2 (some (colOf x.id)), a.2 + 1) else a)
          (arr, i)) = _
      rw [hdec, foldl_bind_unique colOf pc l₁ s l₂ arr i h1 hs h2]
    have hrest := ih (arr.set i (some (colOf s.id))) (i + 1)
      (fun q hq => hu q (List.mem_cons_of_mem _ hq))
      (by simp only [List.length_set, List.length_cons] at hlen ⊢; omega)
    refine ⟨?_, ?_, ?_⟩
    · rw [hstep, hrest.1, List.length_set]
    · intro j hj
      rw [hstep, hrest.2.1 j (by omega)]
      rw [List.getD_eq_getElem?_getD, List.getD_eq_getElem?_getD,
        List.getElem?_set_ne (by omega : i ≠ j)]
    · intro j hj
      cases j with
      | zero =>
        simp only [Nat.add_zero]
        rw [hstep, hrest.2.1 i (by omega)]
        rw [List.getD_eq_getElem?_getD, List.getElem?_set_eq_of_lt _ hilt]
        simp [expectedEntry, hms]
      | succ j' =>
        rw [hstep, show i + (j' + 1) = (i + 1) + j' by omega,
          hrest.2.2 j' (by simp only [List.length_cons] at hj; omega)]
        rfl

theorem resolveBinding_spec (pcs : List PartitionColumn) (slots : List Slot)
    (colOf : Nat → List Int)
    (h : ∀ pc ∈ pcs, (slots.filter fun s => s.colName = pc.columnName).length = 1) :
    (resolveBinding pcs slots colOf).length = pcs.length
    ∧ ∀ j, j < pcs.length →
        (resolveBinding pcs slots colOf).getD j none
          = expectedEntry slots colOf (pcs.getD j ⟨"", "", ""⟩) := by
  have hs := resolveAux_spec slots colOf pcs (List.replicate pcs.length none) 0 h (by simp)
  refine ⟨by simpa [resolveBinding] using hs.1, ?_⟩
  intro j hj
  have := hs.2.2 j hj
  rwa [Nat.zero_add] at this

/-!
## Key derivation: error behaviour
-/

theorem deriveKeyAux_unsupported (cfg : SinkConfig) (cols : List (Option (List Int)))
    (i : Nat) :
    ∀ (pcs : List PartitionColumn) (idx : Nat) (acc : String),
      (∀ k, k < pcs.length → (cols.getD (idx + k) none).isSome) →
      (∃ pc ∈ pcs, pc.transform ≠ "day") →
      ∃ t, t ≠ "day" ∧ deriveKeyAux cfg cols i pcs idx acc = .error (.unsupported t) := by
  intro pcs
  induction pcs with
  | nil =>
    intro idx acc _ hbad
    simp at hbad
  | cons pc rest ih =>
    intro idx acc hb hbad
    by_cases hd : pc.transform = "day"
    · obtain ⟨col, hcol⟩ := Option.isSome_iff_exists.mp
        (by simpa using hb 0 (by simp))
      have hbad' : ∃ q ∈ rest, q.transform ≠ "day" := by
        rcases hbad with ⟨q, hq, hqd⟩
        rcases List.mem_cons.mp hq with hq | hq
        · exact absurd (hq ▸ hd) hqd
        · exact ⟨q, hq, hqd⟩
      have hb' : ∀ k, k < rest.length → (cols.getD (idx + 1 + k) none).isSome := by
        intro k hk
        have := hb (k + 1) (by simpa using Nat.succ_lt_succ hk)
        rwa [show idx + (k + 1) = idx + 1 + k by omega] at this
      obtain ⟨t, ht, he⟩ := ih (idx + 1)
        (acc ++ pc.partitionName ++ "=" ++ cfg.formatDay (col.getD i 0 - cfg.tzOffset) ++ "/")
        hb' hbad'
      exact ⟨t, ht, by simp [deriveKeyAux, hd, hcol]; simpa using he⟩
    · exact ⟨pc.transform, hd, by simp [deriveKeyAux, hd]⟩

theorem deriveKeyAux_no_nulls (cfg : SinkConfig) (cols : List (Option (List Int)))
    (i : Nat) :
    ∀ (pcs : List PartitionColumn) (idx : Nat) (acc : String),
      (∀ k, k < pcs.length → (cols.getD (idx + k) none).isSome) →
      deriveKeyAux cfg cols i pcs idx acc ≠ .error .nullDeref := by
  intro pcs
  induction pcs with
  | nil => intro idx acc _ h; simp [deriveKeyAux] at h
  | cons pc rest ih =>
    intro idx acc hb
    by_cases hd : pc.transform = "day"
    · have hsome := hb 0 (by simp)
      rw [Nat.add_zero] at hsome
      obtain ⟨col, hcol⟩ := Option.isSome_iff_exists.mp hsome
      have hb' : ∀ k, k < rest.length → (cols.getD (idx + 1 + k) none).isSome := by
        intro k hk
        have := hb (k + 1) (by simpa using Nat.succ_lt_succ hk)
        rwa [show idx + (k + 1) = idx + 1 + k by omega] at this
      simp only [deriveKeyAux, if_pos hd, hcol]
      exact ih (idx + 1) _ hb'
    · simp [deriveKeyAux, hd]

theorem deriveAllKeys_head_error (cfg : SinkConfig) (pcs : List PartitionColumn)
    (cols : List (Option (List Int))) (n : Nat) (hn : 0 < n) (e : DeriveErr)
    (h : deriveKey cfg pcs cols 0 = .error e) :
    deriveAllKeys cfg pcs cols n = .error e := by
  obtain ⟨m, rfl⟩ : ∃ m, n = m + 1 := ⟨n - 1, (Nat.succ_pred_eq_of_pos hn).symm⟩
  rw [deriveAllKeys, List.range_succ_eq_map]
  simp [deriveAll, h]

/-!
## C8: unsupported transforms abort the whole batch
-/

/-- C8: for a batch with at least one row, when the partition columns are
well-bound (each source name matches exactly one slot) and any partition
column's transform is not day-truncation, `send_chunk` fails with an
"unsupported transform" error, leaves the sink state unchanged, and performs
no writer-lifecycle action — no partition of the batch is written. -/
theorem c8_unsupported_transform_aborts_batch (cfg : SinkConfig)
    (pcs : List PartitionColumn) (slots : List Slot) (colOf : Nat → List Int)
    (numRows : Nat) (policy : Nat → Bool) (st : SinkState)
    (hrows : 0 < numRows)
    (hbind : ∀ pc ∈ pcs, (slots.filter fun s => s.colName = pc.columnName).length = 1)
    (hbad : ∃ pc ∈ pcs, pc.transform ≠ "day") :
    ∃ t, t ≠ "day"
      ∧ sendChunkModel cfg pcs slots colOf numRows policy st
          = (.notSupported ("unsupported transform " ++ t), st, []) := by
  obtain ⟨hlen, hspec⟩ := resolveBinding_spec pcs slots colOf hbind
  have hbound : ∀ k, k < pcs.length →
      ((resolveBinding pcs slots colOf).getD (0 + k) none).isSome := by
    intro k hk
    rw [Nat.zero_add, hspec k hk]
    have hmem : pcs.getD k ⟨"", "", ""⟩ ∈ pcs := by
      rw [List.getD_eq_getElem pcs _ hk]
      exact List.getElem_mem hk
    obtain ⟨l₁, s, l₂, _, _, _, _, hms⟩ :=
      exists_unique_match_decomp slots _ (hbind _ hmem)
    rw [expectedEntry, hms]
    rfl
  obtain ⟨t, ht, herr⟩ :=
    deriveKeyAux_unsupported cfg (resolveBinding pcs slots colOf) 0 pcs 0 "" hbound hbad
  refine ⟨t, ht, ?_⟩
  have hall : deriveAllKeys cfg pcs (resolveBinding pcs slots colOf) numRows
      = .error (.unsupported t) :=
    deriveAllKeys_head_error cfg pcs _ numRows hrows _ herr
  simp [sendChunkModel, hall]

/-- Witness for C8: a single-row batch whose only partition column uses the
"hour" transform is rejected whole. -/
theorem c8_unsupported_transform_aborts_batch_witness :
    ∃ t, t ≠ "day"
      ∧ sendChunkModel cfgC [⟨"a", "pa", "hour"⟩] [⟨1, "a"⟩] (fun _ => [0]) 1
          (fun _ => false) (initSink [])
          = (.notSupported ("unsupported transform " ++ t), initSink [], []) :=
  c8_unsupported_transform_aborts_batch cfgC [⟨"a", "pa", "hour"⟩] [⟨1, "a"⟩]
    (fun _ => [0]) 1 (fun _ => false) (initSink []) (by decide)
    (by intro pc hpc; simp at hpc; simp [hpc]) ⟨⟨"a", "pa", "hour"⟩, by simp, by simp⟩

/-!
## C10: partition-column binding alignment
-/

/-- C10: when every partition column's source name matches exactly one output
slot, the k-th resolved cell is precisely the column of the slot matching the
k-th partition column and no per-row access during key derivation touches a
null column; when a partition column matches no slot, the cells misalign with
the per-column index and derivation dereferences a null column pointer (shown
on a concrete instance: the cell at index 0 holds the column of the slot that
matches the *second* partition column, the cell at index 1 is null, and
deriving row 0 faults). -/
theorem c10_binding_alignment :
    (∀ (pcs : List PartitionColumn) (slots : List Slot) (colOf : Nat → List Int),
       (∀ pc ∈ pcs, (slots.filter fun s => s.colName = pc.columnName).length = 1) →
       (∀ j, j < pcs.length →
          ∃ s, matchedSlot slots (pcs.getD j ⟨"", "", ""⟩) = some s
            ∧ s.colName = (pcs.getD j ⟨"", "", ""⟩).columnName
            ∧ (resolveBinding pcs slots colOf).getD j none = some (colOf s.id))
       ∧ ∀ (cfg : SinkConfig) (i : Nat),
           deriveKey cfg pcs (resolveBinding pcs slots colOf) i ≠ .error .nullDeref)
    ∧ (resolveBinding [⟨"a", "pa", "day"⟩, ⟨"b", "pb", "day"⟩] [⟨1, "b"⟩]
          (fun j => [Int.ofNat j]) = [some [1], none]
       ∧ deriveKey cfgC [⟨"a", "pa", "day"⟩, ⟨"b", "pb", "day"⟩]
            (resolveBinding [⟨"a", "pa", "day"⟩, ⟨"b", "pb", "day"⟩] [⟨1, "b"⟩]
              (fun j => [Int.ofNat j])) 0
          = .error .nullDeref) := by
  constructor
  · intro pcs slots colOf hbind
    obtain ⟨hlen, hspec⟩ := resolveBinding_spec pcs slots colOf hbind
    constructor
    · intro j hj
      have hmem : pcs.getD j ⟨"", "", ""⟩ ∈ pcs := by
        rw [List.getD_eq_getElem pcs _ hj]
        exact List.getElem_mem hj
      obtain ⟨l₁, s, l₂, _, hs, _, _, hms⟩ :=
        exists_unique_match_decomp slots _ (hbind _ hmem)
      exact ⟨s, hms, hs, by rw [hspec j hj, expectedEntry, hms]; rfl⟩
    · intro cfg i
      have hbound : ∀ k, k < pcs.length →
          ((resolveBinding pcs slots colOf).getD (0 + k) none).isSome := by
        intro k hk
        rw [Nat.zero_add, hspec k hk]
        have hmem : pcs.getD k ⟨"", "", ""⟩ ∈ pcs := by
          rw [List.getD_eq_getElem pcs _ hk]
          exact List.getElem_mem hk
        obtain ⟨l₁, s, l₂, _, _, _, _, hms⟩ :=
          exists_unique_match_decomp slots _ (hbind _ hmem)
        rw [expectedEntry, hms]
        rfl
      exact deriveKeyAux_no_nulls cfg (resolveBinding pcs slots colOf) i pcs 0 "" hbound
  · exact ⟨by decide, by decide⟩

/-- Witness for C10's universally quantified part at a concrete well-bound
spec: two partition columns, two matching slots, aligned cells. -/
theorem c10_binding_alignment_witness :
    (resolveBinding [⟨"a", "pa", "day"⟩, ⟨"b", "pb", "day"⟩] [⟨1, "b"⟩, ⟨2, "a"⟩]
        (fun j => [Int.ofNat j])).getD 0 none = some [2]
    ∧ (resolveBinding [⟨"a", "pa", "day"⟩, ⟨"b", "pb", "day"⟩] [⟨1, "b"⟩, ⟨2, "a"⟩]
        (fun j => [Int.ofNat j])).getD 1 none = some [1] := by
  have halign := (c10_binding_alignment.1 [⟨"a", "pa", "day"⟩, ⟨"b", "pb", "day"⟩]
    [⟨1, "b"⟩, ⟨2, "a"⟩] (fun j => [Int.ofNat j])
    (by intro pc hpc; simp at hpc; rcases hpc with h | h <;> simp [h])).1
  obtain ⟨s0, hm0, hc0, he0⟩ := halign 0 (by decide)
  obtain ⟨s1, hm1, hc1, he1⟩ := halign 1 (by decide)
  have hs0 : s0 = ⟨2, "a"⟩ := by
    have hone : matchedSlot [⟨1, "b"⟩, ⟨2, "a"⟩]
        (([⟨"a", "pa", "day"⟩, ⟨"b", "pb", "day"⟩] :
          List PartitionColumn).getD 0 ⟨"", "", ""⟩) = some ⟨2, "a"⟩ := by decide
    rw [hone] at hm0
    exact (Option.some.inj hm0).symm
  have hs1 : s1 = ⟨1, "b"⟩ := by
    have hone : matchedSlot [⟨1, "b"⟩, ⟨2, "a"⟩]
        (([⟨"a", "pa", "day"⟩, ⟨"b", "pb", "day"⟩] :
          List PartitionColumn).getD 1 ⟨"", "", ""⟩) = some ⟨1, "b"⟩ := by decide
    rw [hone] at hm1
    exact (Option.some.inj hm1).symm
  constructor
  · rw [he0, hs0]
    decide
  · rw [he1, hs1]
    decide

/-!
## C1: grouping by cached data pointers
-/

theorem dedupFS_concat (l : List String) (x : String) :
    dedupFS (l ++ [x]) = if x ∈ dedupFS l then dedupFS l else dedupFS l ++ [x] := by
  unfold dedupFS
  rw [List.foldl_append]
  rfl

theorem mem_dedupFS (l : List String) (y : String) : y ∈ dedupFS l ↔ y ∈ l := by
  suffices h : ∀ acc, y ∈ l.foldl (fun acc k => if k ∈ acc then acc else acc ++ [k]) acc
      ↔ y ∈ acc ∨ y ∈ l by
    simpa [dedupFS] using h []
  induction l with
  | nil => intro acc; simp
  | cons x rest ih =>
    intro acc
    rw [List.foldl_cons, ih]
    by_cases hx : x ∈ acc
    · simp only [if_pos hx, List.mem_cons]
      constructor
      · rintro (h | h)
        · exact Or.inl h
        · exact Or.inr (Or.inr h)
      · rintro (h | h | h)
        · exact Or.inl h
        · exact Or.inl (h ▸ hx)
        · exact Or.inr h
    · simp only [if_neg hx, List.mem_append, List.mem_singleton, List.mem_cons]
      tauto

theorem dedupFS_nodup (l : List String) : (dedupFS l).Nodup := by
  suffices h : ∀ acc : List String, acc.Nodup →
      (l.foldl (fun acc k => if k ∈ acc then acc else acc ++ [k]) acc).Nodup from
    h [] List.nodup_nil
  induction l with
  | nil => intro acc hacc; exact hacc
  | cons x rest ih =>
    intro acc hacc
    rw [List.foldl_cons]
    by_cases hx : x ∈ acc
    · rw [if_pos hx]; exact ih acc hacc
    · rw [if_neg hx]
      exact ih (acc ++ [x]) (by simp [List.nodup_append, hacc, hx])

theorem idxIn_lt_length (k : String) (l : List String) (h : k ∈ l) :
    idxIn k l < l.length := by
  induction l with
  | nil => simp at h
  | cons x rest ih =>
    by_cases hx : x = k
    · simp [idxIn, hx]
    · rcases List.mem_cons.mp h with h' | h'
      · exact absurd h'.symm hx
      · simpa [idxIn, hx] using ih h'

theorem getD_idxIn (k : String) (l : List String) (h : k ∈ l) :
    l.getD (idxIn k l) "" = k := by
  induction l with
  | nil => simp at h
  | cons x rest ih =>
    by_cases hx : x = k
    · simp [idxIn, hx]
    · rcases List.mem_cons.mp h with h' | h'
      · exact absurd h'.symm hx
      · simpa [idxIn, hx] using ih h'

theorem idxIn_append_of_mem (k : String) (l l₂ : List String) (h : k ∈ l) :
    idxIn k (l ++ l₂) = idxIn k l := by
  induction l with
  | nil => simp at h
  | cons x rest ih =>
    by_cases hx : x = k
    · simp [idxIn, hx]
    · rcases List.mem_cons.mp h with h' | h'
      · exact absurd h'.symm hx
      · simp [idxIn, hx, ih h']

theorem idxIn_snoc_self (k : String) (l : List String) (h : k ∉ l) :
    idxIn k (l ++ [k]) = l.length := by
  induction l with
  | nil => simp [idxIn]
  | cons x rest ih =>
    have hx : x ≠ k := fun he => h (by simp [he])
    simp [idxIn, hx, ih fun hm => h (List.mem_cons_of_mem _ hm)]

theorem idxIn_getD_of_nodup (l : List String) (h : l.Nodup) :
    ∀ j, j < l.length → idxIn (l.getD j "") l = j := by
  induction l with
  | nil => intro j hj; simp at hj
  | cons x rest ih =>
    intro j hj
    cases j with
    | zero => simp [idxIn]
    | succ j' =>
      have hnd := List.nodup_cons.mp h
      have hj' : j' < rest.length := by simpa using hj
      have hmem : rest.getD j' "" ∈ rest := by
        rw [List.getD_eq_getElem rest _ hj']
        exact List.getElem_mem hj'
      have hx : x ≠ rest.getD j' "" := fun he => hnd.1 (he ▸ hmem)
      rw [List.getD_cons_succ]
      show (if x = rest.getD j' "" then 0 else idxIn (rest.getD j' "") rest + 1) = j' + 1
      rw [if_neg hx, ih hnd.2 j' hj']

theorem range_getD (n j : Nat) (h : j < n) : (List.range n).getD j 0 = j := by
  rw [List.getD_eq_getElem _ _ (by simpa using h)]
  simp

theorem map_idxIn_getD (l : List String) (D : List String) (i : Nat) (h : i < l.length) :
    (l.map fun k => idxIn k D).getD i 0 = idxIn (l.getD i "") D := by
  rw [List.getD_eq_getElem _ _ (by simpa using h), List.getD_eq_getElem _ _ h,
    List.getElem_map]

theorem stable_foldl (rows : List String) :
    rows.foldl (processRow fun _ => false) initPK
      = ⟨dedupFS rows, List.range (dedupFS rows).length, (dedupFS rows).length,
         rows.map fun k => idxIn k (dedupFS rows)⟩ := by
  induction rows using List.reverseRecOn with
  | nil => rfl
  | append_singleton l x ih =>
    rw [List.foldl_append, ih, List.foldl_cons, List.foldl_nil]
    by_cases hx : x ∈ dedupFS l
    · have hkeys : dedupFS (l ++ [x]) = dedupFS l := by rw [dedupFS_concat, if_pos hx]
      have hlt := idxIn_lt_length x (dedupFS l) hx
      have hstep : processRow (fun _ => false)
          ⟨dedupFS l, List.range (dedupFS l).length, (dedupFS l).length,
           l.map fun k => idxIn k (dedupFS l)⟩ x
          = ⟨dedupFS l, List.range (dedupFS l).length, (dedupFS l).length,
             (l.map fun k => idxIn k (dedupFS l)) ++ [idxIn x (dedupFS l)]⟩ := by
        unfold processRow
        rw [if_pos hx, range_getD _ _ hlt]
      rw [hstep, hkeys, List.map_append]
      rfl
    · have hkeys : dedupFS (l ++ [x]) = dedupFS l ++ [x] := by
        rw [dedupFS_concat, if_neg hx]
      have hstep : processRow (fun _ => false)
          ⟨dedupFS l, List.range (dedupFS l).length, (dedupFS l).length,
           l.map fun k => idxIn k (dedupFS l)⟩ x
          = ⟨dedupFS l ++ [x], List.range (dedupFS l).length ++ [(dedupFS l).length],
             (dedupFS l).length + 1,
             (l.map fun k => idxIn k (dedupFS l)) ++ [(dedupFS l).length]⟩ := by
        unfold processRow
        rw [if_neg hx]
        rfl
      rw [hstep, hkeys, PKState.mk.injEq]
      refine ⟨rfl, ?_, ?_, ?_⟩
      · rw [List.length_append, List.length_singleton, List.range_succ]
      · rw [List.length_append, List.length_singleton]
      · rw [List.map_append]
        congr 1
        · apply List.map_congr_left
          intro k hk
          exact (idxIn_append_of_mem k (dedupFS l) [x] ((mem_dedupFS l k).mpr hk)).symm
        · rw [show ([x].map fun k => idxIn k (dedupFS l ++ [x]))
              = [idxIn x (dedupFS l ++ [x])] from rfl,
            idxIn_snoc_self x (dedupFS l) hx]

/-- C1 (amended): provided no `emplace_back` into `partitionKeys` relocates
the stored strings' character data (so every cached `partitionReferences`
pointer stays valid), the partitioning of `send_chunk` groups rows by key
*value*: the sub-batch keys are exactly the distinct derived keys in
first-seen order, each listed once, and a row index lands in a sub-batch iff
its derived key equals that sub-batch's key. -/
theorem c1_grouping_by_value_if_stable (rows : List String) :
    ((sendPartition (fun _ => false) rows).map Prod.fst = dedupFS rows)
    ∧ ((sendPartition (fun _ => false) rows).map Prod.fst).Nodup
    ∧ ∀ i, i < rows.length → ∀ kg ∈ sendPartition (fun _ => false) rows,
        (i ∈ kg.2 ↔ rows.getD i "" = kg.1) := by
  unfold sendPartition
  rw [stable_foldl]
  unfold pkGroups
  simp only [List.length_map]
  by_cases hn : (dedupFS rows).length = 1
  · obtain ⟨a, ha⟩ := List.length_eq_one.mp hn
    simp only [hn, if_pos, ha, List.headD_cons, List.map_cons, List.map_nil]
    refine ⟨rfl, List.nodup_singleton a, ?_⟩
    intro i hi kg hkg
    rcases List.mem_singleton.mp hkg with rfl
    simp only [List.mem_range, List.length_map]
    have hrmem : rows.getD i "" ∈ rows := by
      rw [List.getD_eq_getElem rows _ hi]
      exact List.getElem_mem hi
    have : rows.getD i "" ∈ dedupFS rows := (mem_dedupFS rows _).mpr hrmem
    rw [ha] at this
    exact ⟨fun _ => (List.mem_singleton.mp this), fun _ => hi⟩
  · rw [if_neg hn]
    have hzlen : ((dedupFS rows).zip (List.range (dedupFS rows).length)).length
        = (dedupFS rows).length := by simp
    constructor
    · rw [List.map_map]
      exact List.map_fst_zip _ _ (by simp)
    constructor
    · rw [List.map_map]
      show (List.map Prod.fst ((dedupFS rows).zip
        (List.range (dedupFS rows).length))).Nodup
      rw [List.map_fst_zip _ _ (by simp)]
      exact dedupFS_nodup rows
    · intro i hi kg hkg
      obtain ⟨p, hp, hfk⟩ := List.mem_map.mp hkg
      obtain ⟨j, hj0, hz⟩ := List.mem_iff_getElem.mp hp
      have hj : j < (dedupFS rows).length := by rw [hzlen] at hj0; exact hj0
      have hzj : ((dedupFS rows).zip (List.range (dedupFS rows).length))[j]
          = ((dedupFS rows)[j], j) := by
        rw [List.getElem_zip]
        simp
      rw [hzj] at hz
      subst hz
      subst hfk
      simp only [List.mem_filter, List.mem_range, List.length_map, decide_eq_true_eq]
      have hrefs : (rows.map fun k => idxIn k (dedupFS rows)).getD i 0
          = idxIn (rows.getD i "") (dedupFS rows) := map_idxIn_getD rows _ i hi
      have hrmem : rows.getD i "" ∈ rows := by
        rw [List.getD_eq_getElem rows _ hi]
        exact List.getElem_mem hi
      have hrD : rows.getD i "" ∈ dedupFS rows := (mem_dedupFS rows _).mpr hrmem
      constructor
      · rintro ⟨-, hidx⟩
        rw [hrefs] at hidx
        have := getD_idxIn (rows.getD i "") (dedupFS rows) hrD
        rw [hidx] at this
        rw [← this, List.getD_eq_getElem (dedupFS rows) _ hj]
      · intro hkey
        refine ⟨hi, ?_⟩
        rw [hrefs, hkey, show ((dedupFS rows)[j] : String) = (dedupFS rows).getD j "" from
          (List.getD_eq_getElem (dedupFS rows) _ hj).symm]
        exact idxIn_getD_of_nodup (dedupFS rows) (dedupFS_nodup rows) j hj

/-- Witness for C1 at a concrete three-row batch with two distinct keys and
stable pointers. -/
theorem c1_grouping_by_value_if_stable_witness :
    sendPartition (fun _ => false) ["a", "b", "a"] = [("a", [0, 2]), ("b", [1])]
    ∧ ∀ kg ∈ sendPartition (fun _ => false) ["a", "b", "a"],
        (0 ∈ kg.2 ↔ ["a", "b", "a"].getD 0 "" = kg.1) :=
  ⟨by decide,
   fun kg hkg => (c1_grouping_by_value_if_stable ["a", "b", "a"]).2.2 0 (by decide) kg hkg⟩

/-- C1 counterexample to the claim as stated: when the second `emplace_back`
relocates the stored keys' data (as a `std::vector` reallocation does for
small-string-optimized keys), rows 0 and 2 derive the identical key "a", row
2 is routed to the "a" sub-batch, yet row 0 — whose cached pointer is stale —
is routed to *no* sub-batch, so identical keys are not routed to the same
sub-batch. -/
theorem c1_pointer_grouping_cex :
    sendPartition (fun n => n = 1) ["a", "b", "a"] = [("a", [2]), ("b", [1])]
    ∧ ["a", "b", "a"].getD 0 "" = "a" ∧ ["a", "b", "a"].getD 2 "" = "a"
    ∧ ∀ kg ∈ sendPartition (fun n => n = 1) ["a", "b", "a"], 0 ∉ kg.2 := by
  decide

end IcebergSink
